import Mathlib

/-
Verification of the TSM columnar file writer (`tskv/src/tsm/writer.rs`): a
shallow embedding of the writer's data model and operations, and theorems
about its chunking, layout, index and orchestration behaviour.

Bytes are modelled as natural numbers below 256, byte buffers as `List Nat`.
External collaborators whose implementations are not among the provided
sources (the sequential file sink `FileCursor`, the membership filter
`BloomFilter`, the typed block `DataBlock`, the block encoder and the CRC32
function) are modelled from the spec and kept as explicit parameters where
their behaviour is irrelevant to the writer's own logic.
-/

namespace Tsm

/-- Big-endian serialization of a natural number into `w` bytes (the Rust
`to_be_bytes` of a `w`-byte unsigned integer); the value is reduced modulo
`256 ^ w`, the least significant byte comes last. -/
def beBytes : Nat → Nat → List Nat
  | 0, _ => []
  | w + 1, x => beBytes w (x / 256) ++ [x % 256]

/-- Two's-complement big-endian serialization of a 64-bit signed integer
(the Rust `i64::to_be_bytes`). -/
def beBytesI64 (x : Int) : List Nat := beBytes 8 (x % ((2 : Int) ^ 64)).toNat

/-- Modelled from the spec: the Sequential File Sink (`FileCursor` in the
source; `direct_io` is not among the provided files) — an append-only byte
sink exposing the current absolute position; `write` appends the bytes and
returns the count written. -/
structure FileCursor where
  buf : List Nat
deriving DecidableEq

/-- Current absolute position of the sink (`FileCursor::pos`). -/
def FileCursor.pos (w : FileCursor) : Nat := w.buf.length

/-- Append bytes to the sink, returning the byte count written
(`FileCursor::write`). -/
def FileCursor.write (w : FileCursor) (bs : List Nat) : Nat × FileCursor :=
  (bs.length, ⟨w.buf ++ bs⟩)

/-- Modelled from the spec: the Membership Filter (`utils::BloomFilter`, whose
implementation is not among the provided files) — a fixed-size bit array;
inserting a key sets the bit the key hashes to, a membership query reads it,
so an inserted key is never reported absent. -/
structure BloomFilter where
  bits : List Bool
deriving DecidableEq

/-- A fresh all-zero filter of `n` bits. -/
def BloomFilter.new (n : Nat) : BloomFilter := ⟨List.replicate n false⟩

/-- Insert a key: set the bit the key hashes to. -/
def BloomFilter.insert (bf : BloomFilter) (key : Nat) : BloomFilter :=
  ⟨bf.bits.set (key % bf.bits.length) true⟩

/-- Membership query: read the bit the key hashes to. -/
def BloomFilter.contains (bf : BloomFilter) (key : Nat) : Bool :=
  bf.bits.getD (key % bf.bits.length) false

/-- Modelled from the spec: the filter's raw bit-array serialization
(`BloomFilter::bytes`). -/
def BloomFilter.bytes (bf : BloomFilter) : List Nat :=
  bf.bits.map (fun b => if b then 1 else 0)

/-- Modelled from the spec: the fixed filter size chosen at file creation
(`BLOOM_FILTER_BITS`, defined outside the provided files). The claims hold
for any fixed size; 512 is used for concrete evaluation. -/
def BLOOM_FILTER_BITS : Nat := 512

/-- Width in bytes of one Index Meta record: field id (8) + value type (1) +
block count (2). (`INDEX_META_SIZE`, defined outside the provided files but
fixed by the index layout table of the format.) -/
def INDEX_META_SIZE : Nat := 11

/-- The index accumulator `IndexBuf` (writer.rs lines 91-99). -/
structure IndexBuf where
  index_offset : Nat
  index_meta : List Nat
  last_block_meta_offset : Nat
  block_meta_offsets : List Nat
  block_meta : List Nat
  bloom_filter : BloomFilter
deriving DecidableEq

/-- `IndexBuf::new` (writer.rs lines 102-109). -/
def IndexBuf.new : IndexBuf :=
  { index_offset := 0
    index_meta := []
    last_block_meta_offset := 0
    block_meta_offsets := []
    block_meta := []
    bloom_filter := BloomFilter.new BLOOM_FILTER_BITS }

/-- `IndexBuf::set_index_offset` (writer.rs lines 111-113). -/
def IndexBuf.set_index_offset (ib : IndexBuf) (off : Nat) : IndexBuf :=
  { ib with index_offset := off }

/-- `IndexBuf::insert_index_meta` (writer.rs lines 115-124): append the
11-byte index-meta record, push the start offset of this field's block-meta
range, and remember the current end of the block-meta buffer. -/
def IndexBuf.insert_index_meta (ib : IndexBuf) (field_id : Nat) (block_type : Nat)
    (block_count : Nat) : IndexBuf :=
  { ib with
    index_meta := ib.index_meta ++ beBytes 8 field_id ++ [block_type % 256] ++ beBytes 2 block_count
    block_meta_offsets := ib.block_meta_offsets ++ [ib.last_block_meta_offset]
    last_block_meta_offset := ib.block_meta.length }

/-- `IndexBuf::insert_block_meta` (writer.rs lines 126-137): append one
40-byte block-meta record (min ts, max ts, offset, size, value offset, all
big-endian). -/
def IndexBuf.insert_block_meta (ib : IndexBuf) (min_ts max_ts : Int)
    (offset size val_off : Nat) : IndexBuf :=
  { ib with
    block_meta := ib.block_meta ++ beBytesI64 min_ts ++ beBytesI64 max_ts ++
      beBytes 8 offset ++ beBytes 8 size ++ beBytes 8 val_off }

/-- Rust range slice `&v[a..b]`: panics — modelled `none` — unless
`a ≤ b ≤ v.length`. -/
def sliceRange (v : List Nat) (a b : Nat) : Option (List Nat) :=
  if a ≤ b ∧ b ≤ v.length then some ((v.drop a).take (b - a)) else none

/-- Rust suffix slice `&v[a..]`: panics — modelled `none` — unless
`a ≤ v.length`. -/
def sliceFrom (v : List Nat) (a : Nat) : Option (List Nat) :=
  if a ≤ v.length then some (v.drop a) else none

/-- The serialization loop of `IndexBuf::write_to` (writer.rs lines 139-159):
per field, write the next 11-byte index-meta record followed by exactly the
block-meta byte range of that field, sliced via `block_meta_offsets`.
`fuel` bounds the remaining iterations of the `while` loop; `none` models a
Rust panic on an out-of-range slice or offset index. -/
def writeToLoop (im bm : List Nat) (offs : List Nat) :
    Nat → Nat → Nat → FileCursor → Nat → Option (Nat × FileCursor)
  | 0, ipos, _, w, size => if im.length ≤ ipos then some (size, w) else none
  | fuel + 1, ipos, iidx, w, size =>
    if im.length ≤ ipos then some (size, w)
    else
      match sliceRange im ipos (ipos + INDEX_META_SIZE) with
      | none => none
      | some imRec =>
        match offs[iidx]? with
        | none => none
        | some a =>
          match (match offs[iidx + 1]? with
                 | some b => sliceRange bm a b
                 | none => sliceFrom bm a) with
          | none => none
          | some bsli =>
            let p1 := FileCursor.write w imRec
            let p2 := FileCursor.write p1.2 bsli
            writeToLoop im bm offs fuel (ipos + INDEX_META_SIZE) (iidx + 1) p2.2
              (size + p1.1 + p2.1)

/-- `IndexBuf::write_to` (writer.rs lines 139-159). The fuel
`index_meta.length` dominates the iteration count, since every iteration
advances the position by `INDEX_META_SIZE = 11`. -/
def IndexBuf.write_to (ib : IndexBuf) (w : FileCursor) : Option (Nat × FileCursor) :=
  writeToLoop ib.index_meta ib.block_meta ib.block_meta_offsets ib.index_meta.length 0 0 w 0

/-- Modelled from the spec: the Typed Block (`DataBlock`, whose definition is
not among the provided files) — the parts the writer reads: the value type
and the timestamp sequence; the point count is the number of timestamps. -/
structure DataBlock where
  vtype : Nat
  ts : List Int
deriving DecidableEq

/-- `DataBlock::len`: the number of points. -/
def DataBlock.len (b : DataBlock) : Nat := b.ts.length

/-- `DataBlock::field_type`: the value type of the block. -/
def DataBlock.field_type (b : DataBlock) : Nat := b.vtype

/-- The chunk-emission loop of `TsmCacheWriter::write_one_block` (writer.rs
lines 194-231), one recursive step per `while` iteration; `fuel` counts the
remaining iterations (`block_count - i`). `none` models a Rust panic: with
`end = point_cnt % cap + i * cap` equal to `0` the expression
`ts_sli[end - 1]` underflows the unsigned index, and any out-of-range
timestamp access aborts. `crc` is the external 32-bit checksum collaborator
(`crc32fast::hash`) and `enc` the external Block Encoder
(`DataBlock::encode`), both outside the provided files and per the spec
deterministic pure functions of the chunk range. -/
def chunkLoop (cap : Nat) (crc : List Nat → Nat) (enc : Nat → Nat → List Nat × List Nat)
    (ts : List Int) (point_cnt : Nat) :
    Nat → Nat → Nat → FileCursor → IndexBuf → Nat → Option (Nat × FileCursor × IndexBuf)
  | 0, _, _, w, ib, total => some (total, w, ib)
  | fuel + 1, i, last_index, w, ib, total =>
    let start := last_index
    let e := point_cnt % cap + i * cap
    if e = 0 then none
    else
      match ts[start]?, ts[e - 1]? with
      | some min_ts, some max_ts =>
        let offset := w.pos
        let tb := (enc start e).1
        let db := (enc start e).2
        let p1 := FileCursor.write w (beBytes 4 (crc tb))
        let p2 := FileCursor.write p1.2 tb
        let val_off := p2.2.pos
        let p3 := FileCursor.write p2.2 (beBytes 4 (crc db))
        let p4 := FileCursor.write p3.2 db
        let blk_size := p1.1 + p2.1 + p3.1 + p4.1
        chunkLoop cap crc enc ts point_cnt fuel (i + 1) e p4.2
          (ib.insert_block_meta min_ts max_ts offset blk_size val_off) (total + blk_size)
      | _, _ => none

/-- `TsmCacheWriter::write_one_block` (writer.rs lines 173-235). `none`
models a Rust panic: for `point_cnt = 0` the subtraction `point_cnt - 1`
underflows a `usize`. The `% 65536` is the `as u16` cast applied to the
computed block count. `cap` stands for the chunk capacity constant
`MAX_BLOCK_VALUES`, defined outside the provided files and therefore kept
as a parameter. -/
def writeOneBlock (cap : Nat) (crc : List Nat → Nat) (enc : Nat → Nat → List Nat × List Nat)
    (w : FileCursor) (index_buf : IndexBuf) (field_id : Nat) (block : DataBlock) :
    Option (Nat × FileCursor × IndexBuf) :=
  let point_cnt := block.len
  if point_cnt = 0 then none
  else
    let block_count := ((point_cnt - 1) / cap + 1) % 65536
    match chunkLoop cap crc enc block.ts point_cnt block_count 0 0 w index_buf 0 with
    | none => none
    | some (total, w1, ib1) =>
      some (total, w1, ib1.insert_index_meta field_id block.field_type block_count)

/-- The error type: the single write-failure kind `Error::WriteTsmErr`
wrapping a human-readable reason string (writer.rs wraps every phase error
via `e.to_string()`, modelled by `Error.message`; `error.rs` itself is not
among the provided files, so an extra constructor stands for arbitrary
underlying failures). -/
inductive Error where
  | writeTsmErr : String → Error
  | other : String → Error
deriving DecidableEq

/-- The reason string of an error (`e.to_string()`). -/
def Error.message : Error → String
  | .writeTsmErr r => r
  | .other s => s

/-- The `TsmWriter::write` default method (writer.rs lines 69-88): the
`and_then` chain over the five phase operations, each phase modelled as a
state-passing function (the `&mut self` threading); the local `size`
accumulates counts exactly as the source closures do — in particular the
last closure binds the footer phase's count to a shadowing `size` binder
that is then dropped. -/
def tsmWrite {S : Type} (fh fb fx ff : S → Except Error Nat × S)
    (ffl : S → Except Error Unit × S) (s : S) : Except Error Nat × S :=
  match fh s with
  | (.error e, s1) => (.error (.writeTsmErr e.message), s1)
  | (.ok i1, s1) =>
    match fb s1 with
    | (.error e, s2) => (.error (.writeTsmErr e.message), s2)
    | (.ok i2, s2) =>
      match fx s2 with
      | (.error e, s3) => (.error (.writeTsmErr e.message), s3)
      | (.ok i3, s3) =>
        match ff s3 with
        | (.error e, s4) => (.error (.writeTsmErr e.message), s4)
        | (.ok _, s4) =>
          match ffl s4 with
          | (.error e, s5) => (.error (.writeTsmErr e.message), s5)
          | (.ok _, s5) => (.ok (i1 + i2 + i3), s5)

/-- `TsmCacheWriter::write_index` (writer.rs lines 253-256): record the
current sink position as the index offset, then serialize the index. -/
def writeIndexPhase (w : FileCursor) (ib : IndexBuf) : Option (Nat × FileCursor × IndexBuf) :=
  let ib1 := ib.set_index_offset w.pos
  match ib1.write_to w with
  | none => none
  | some (sz, w1) => some (sz, w1, ib1)

/-- `write_footer_to` (writer.rs lines 320-334): the filter's raw bytes
followed by the 8-byte big-endian index offset. -/
def write_footer_to (w : FileCursor) (bloom_filter : BloomFilter)
    (index_offset : Nat) : Nat × FileCursor :=
  let p1 := FileCursor.write w bloom_filter.bytes
  let p2 := FileCursor.write p1.2 (beBytes 8 index_offset)
  (p1.1 + p2.1, p2.2)

/-- `TsmCacheWriter::write_footer` (writer.rs lines 258-260). -/
def writeFooterPhase (w : FileCursor) (ib : IndexBuf) : Nat × FileCursor :=
  write_footer_to w ib.bloom_filter ib.index_offset

/-- A concrete stand-in for the external CRC32 collaborator, used to
evaluate the writer on concrete inputs. -/
def crcZero : List Nat → Nat := fun _ => 0

/-- A concrete stand-in for the external Block Encoder: each point of the
chunk range encodes to one timestamp byte and one value byte. -/
def encConst : Nat → Nat → List Nat × List Nat :=
  fun s e => (List.replicate (e - s) 0, List.replicate (e - s) 0)

/-- Descriptor of one emitted chunk: its point range and the block meta
recorded for it. Used to state what the chunk loop appends. -/
structure ChunkRec where
  cstart : Nat
  cend : Nat
  minTs : Int
  maxTs : Int
  offset : Nat
  size : Nat
  valOff : Nat
deriving DecidableEq

/-- The 40 block-meta bytes recorded for one chunk. -/
def ChunkRec.metaBytes (c : ChunkRec) : List Nat :=
  beBytesI64 c.minTs ++ beBytesI64 c.maxTs ++ beBytes 8 c.offset ++
    beBytes 8 c.size ++ beBytes 8 c.valOff

/-- The wire bytes of one chunk: 4-byte big-endian checksum of the timestamp
payload, the timestamp payload, 4-byte big-endian checksum of the value
payload, the value payload. -/
def wireBytes (crc : List Nat → Nat) (tb db : List Nat) : List Nat :=
  beBytes 4 (crc tb) ++ tb ++ beBytes 4 (crc db) ++ db

/-- The bytes one chunk contributes to the sink. -/
def ChunkRec.wire (crc : List Nat → Nat) (enc : Nat → Nat → List Nat × List Nat)
    (c : ChunkRec) : List Nat :=
  wireBytes crc (enc c.cstart c.cend).1 (enc c.cstart c.cend).2

/-- Chunk records form a contiguous chain starting at sink position `pos`:
each record's byte offset is the running position, its value-section offset
points right after the timestamp section, its size is checksums plus
payloads exactly, and the next record starts where this one ends. -/
def WireChain (enc : Nat → Nat → List Nat × List Nat) :
    Nat → List ChunkRec → Prop
  | _, [] => True
  | pos, c :: rest =>
    c.offset = pos ∧
    c.valOff = pos + 4 + (enc c.cstart c.cend).1.length ∧
    c.size = 4 + (enc c.cstart c.cend).1.length + 4 + (enc c.cstart c.cend).2.length ∧
    WireChain enc (pos + c.size) rest

/-- Big-endian value of a byte list. -/
def readBe (l : List Nat) : Nat := l.foldl (fun a b => a * 256 + b % 256) 0

/-- Decode the recorded `(byte_offset, byte_size)` of each serialized
block-meta record (40 bytes each; the offset occupies bytes 16..23, the
size bytes 24..31, big-endian). -/
def bmPairsAux : Nat → List Nat → List (Nat × Nat)
  | 0, _ => []
  | f + 1, l =>
    if 40 ≤ l.length then
      (readBe ((l.drop 16).take 8), readBe ((l.drop 24).take 8)) :: bmPairsAux f (l.drop 40)
    else []

/-- Decode all `(byte_offset, byte_size)` pairs of a block-meta buffer. -/
def bmPairs (l : List Nat) : List (Nat × Nat) := bmPairsAux l.length l

/-- One field's accumulated metadata, in the order the writer produces it:
the arguments of its `insert_block_meta` calls followed by the arguments of
its one `insert_index_meta` call. -/
structure FieldEntry where
  fid : Nat
  vtype : Nat
  bcount : Nat
  blocks : List ((Int × Int) × (Nat × Nat × Nat))
deriving DecidableEq

/-- The block-meta bytes a field's entry appends to the flat buffer. -/
def FieldEntry.blockBytes (e : FieldEntry) : List Nat :=
  (e.blocks.map (fun b => beBytesI64 b.1.1 ++ beBytesI64 b.1.2 ++ beBytes 8 b.2.1 ++
    beBytes 8 b.2.2.1 ++ beBytes 8 b.2.2.2)).flatten

/-- The 11 index-meta bytes a field's entry appends. -/
def FieldEntry.idxBytes (e : FieldEntry) : List Nat :=
  beBytes 8 e.fid ++ [e.vtype % 256] ++ beBytes 2 e.bcount

/-- Accumulate one field into the index builder, exactly as the block
emission does: all block metas, then the index meta. -/
def applyEntry (ib : IndexBuf) (e : FieldEntry) : IndexBuf :=
  (e.blocks.foldl (fun acc b => acc.insert_block_meta b.1.1 b.1.2 b.2.1 b.2.2.1 b.2.2.2) ib).insert_index_meta
    e.fid e.vtype e.bcount

/-- Accumulate a sequence of fields into the index builder. -/
def applyEntries (ib : IndexBuf) (es : List FieldEntry) : IndexBuf :=
  es.foldl applyEntry ib

/-- The block-meta start offsets recorded for a sequence of fields, first
field starting at `a`. -/
def startsFrom : Nat → List FieldEntry → List Nat
  | _, [] => []
  | a, e :: es => a :: startsFrom (a + e.blockBytes.length) es

/-- The bytes the index phase emits for a sequence of fields: per field its
index-meta record immediately followed by its block-meta records. -/
def indexWire (es : List FieldEntry) : List Nat :=
  (es.map (fun e => e.idxBytes ++ e.blockBytes)).flatten

/-
Theorems: basic serialization facts first, then the inductive lemmas about
the loops, then the claim theorems.
-/

theorem beBytes_length (w x : Nat) : (beBytes w x).length = w := by
  induction w generalizing x with
  | zero => rfl
  | succ w ih => simp [beBytes, ih]

theorem beBytesI64_length (x : Int) : (beBytesI64 x).length = 8 := by
  simp [beBytesI64, beBytes_length]

theorem wireBytes_length (crc : List Nat → Nat) (tb db : List Nat) :
    (wireBytes crc tb db).length = 4 + tb.length + 4 + db.length := by
  simp [wireBytes, beBytes_length]; omega

theorem pred_div_eq_of_mod_ne_zero (n cap : Nat) (h : n % cap ≠ 0) :
    (n - 1) / cap = n / cap := by
  cases cap with
  | zero => simp
  | succ c =>
    have hd := Nat.div_add_mod n (c + 1)
    have hm : n % (c + 1) < c + 1 := Nat.mod_lt _ (Nat.succ_pos c)
    have h1 : 1 ≤ n % (c + 1) := Nat.pos_of_ne_zero h
    have hsub : n - 1 = (n % (c + 1) - 1) + (c + 1) * (n / (c + 1)) := by omega
    rw [hsub, Nat.add_mul_div_left _ _ (Nat.succ_pos c),
      Nat.div_eq_of_lt (show n % (c + 1) - 1 < c + 1 by omega), Nat.zero_add]

/-- Master lemma about the chunk-emission loop: when the point count is not
a multiple of the chunk capacity, the loop succeeds; it appends to the sink
exactly the wire bytes of a chain of chunks, appends the corresponding
block-meta records to the index builder, adds their total size to the
running count, and the chunks form a contiguous offset chain starting at
the initial sink position. -/
theorem chunkLoop_spec (cap : Nat) (crc : List Nat → Nat)
    (enc : Nat → Nat → List Nat × List Nat) (ts : List Int)
    (hr : ts.length % cap ≠ 0) :
    ∀ fuel i last_index w ib total,
      fuel + i ≤ ts.length / cap + 1 →
      (i = 0 ∧ last_index = 0 ∨ 1 ≤ i ∧ last_index = ts.length % cap + (i - 1) * cap) →
      ∃ recs : List ChunkRec,
        chunkLoop cap crc enc ts ts.length fuel i last_index w ib total
          = some (total + (recs.map ChunkRec.size).sum,
                  ⟨w.buf ++ (recs.map (ChunkRec.wire crc enc)).flatten⟩,
                  { ib with block_meta := ib.block_meta ++ (recs.map ChunkRec.metaBytes).flatten }) ∧
        WireChain enc w.pos recs := by
  intro fuel
  induction fuel with
  | zero =>
    intro i last_index w ib total _ _
    exact ⟨[], by simp [chunkLoop, WireChain], by simp [WireChain]⟩
  | succ fuel ih =>
    intro i last_index w ib total hb hlast
    have hrpos : 0 < ts.length % cap := Nat.pos_of_ne_zero hr
    have hnpos : 0 < ts.length := by
      rcases Nat.eq_zero_or_pos ts.length with h0 | h; · simp [h0] at hr
      · exact h
    have hcap : cap = 0 → i = 0 := by
      intro hc; subst hc; simp [Nat.div_zero] at hb; omega
    have hi : i ≤ ts.length / cap := by omega
    have himul : i * cap ≤ (ts.length / cap) * cap := Nat.mul_le_mul_right cap hi
    have hmd : ts.length % cap + (ts.length / cap) * cap = ts.length := by
      rw [Nat.mul_comm]; exact Nat.mod_add_div ts.length cap
    have he_le : ts.length % cap + i * cap ≤ ts.length := by omega
    have he0 : ¬ (ts.length % cap + i * cap = 0) := by omega
    have hstart : last_index < ts.length := by
      rcases hlast with ⟨_, h⟩ | ⟨hi1, h⟩
      · omega
      · have hc : 0 < cap := by
          rcases Nat.eq_zero_or_pos cap with h0 | h0
          · have := hcap h0; omega
          · exact h0
        have : (i - 1) * cap < i * cap := by
          apply Nat.mul_lt_mul_of_lt_of_le (by omega) (le_refl cap) hc
        omega
    have hend : ts.length % cap + i * cap - 1 < ts.length := by omega
    have h1 : ts[last_index]? = some (ts.get ⟨last_index, hstart⟩) := by
      simp [List.getElem?_eq_getElem hstart]
    have h2 : ts[ts.length % cap + i * cap - 1]? =
        some (ts.get ⟨ts.length % cap + i * cap - 1, hend⟩) := by
      simp [List.getElem?_eq_getElem hend]
    obtain ⟨recs', heq', hchain'⟩ :=
      ih (i + 1) (ts.length % cap + i * cap)
        ⟨w.buf ++ wireBytes crc (enc last_index (ts.length % cap + i * cap)).1
          (enc last_index (ts.length % cap + i * cap)).2⟩
        (ib.insert_block_meta (ts.get ⟨last_index, hstart⟩)
          (ts.get ⟨ts.length % cap + i * cap - 1, hend⟩) w.pos
          (4 + (enc last_index (ts.length % cap + i * cap)).1.length + 4 +
            (enc last_index (ts.length % cap + i * cap)).2.length)
          (w.pos + (4 + (enc last_index (ts.length % cap + i * cap)).1.length)))
        (total + (4 + (enc last_index (ts.length % cap + i * cap)).1.length + 4 +
          (enc last_index (ts.length % cap + i * cap)).2.length))
        (by omega) (Or.inr ⟨by omega, by simp⟩)
    refine ⟨⟨last_index, ts.length % cap + i * cap, ts.get ⟨last_index, hstart⟩,
      ts.get ⟨ts.length % cap + i * cap - 1, hend⟩, w.pos,
      4 + (enc last_index (ts.length % cap + i * cap)).1.length + 4 +
        (enc last_index (ts.length % cap + i * cap)).2.length,
      w.pos + 4 + (enc last_index (ts.length % cap + i * cap)).1.length⟩ :: recs', ?_, ?_⟩
    · simp only [chunkLoop, if_neg he0, h1, h2, FileCursor.write, FileCursor.pos,
        beBytes_length, List.length_append, List.append_assoc]
      simp only [FileCursor.write, FileCursor.pos, beBytes_length, List.length_append,
        List.append_assoc, wireBytes] at heq'
      rw [heq']
      simp [ChunkRec.wire, wireBytes, ChunkRec.metaBytes, IndexBuf.insert_block_meta,
        List.append_assoc, Nat.add_assoc]
    · refine ⟨rfl, rfl, rfl, ?_⟩
      have : (⟨w.buf ++ wireBytes crc (enc last_index (ts.length % cap + i * cap)).1
          (enc last_index (ts.length % cap + i * cap)).2⟩ : FileCursor).pos =
          w.pos + (4 + (enc last_index (ts.length % cap + i * cap)).1.length + 4 +
            (enc last_index (ts.length % cap + i * cap)).2.length) := by
        simp [FileCursor.pos, wireBytes_length]
      rw [this] at hchain'
      exact hchain'

/-- When the point count is a nonzero multiple of the chunk capacity, the
chunk loop's first iteration computes `end = n mod cap = 0` and the access
`ts_sli[end - 1]` panics: the embedding returns `none`. -/
theorem writeOneBlock_none_of_mod_eq_zero (cap : Nat) (crc : List Nat → Nat)
    (enc : Nat → Nat → List Nat × List Nat) (w : FileCursor) (ib : IndexBuf)
    (fid : Nat) (blk : DataBlock)
    (h : blk.ts.length % cap = 0)
    (hbc : ((blk.ts.length - 1) / cap + 1) % 65536 ≠ 0) :
    writeOneBlock cap crc enc w ib fid blk = none := by
  obtain ⟨m, hm⟩ : ∃ m, ((blk.ts.length - 1) / cap + 1) % 65536 = m + 1 :=
    ⟨((blk.ts.length - 1) / cap + 1) % 65536 - 1, by omega⟩
  simp [writeOneBlock, DataBlock.len, hm, chunkLoop, h]

/-- Success specification of `write_one_block`: when the point count is not
a multiple of the chunk capacity, the operation succeeds, appends the wire
bytes of a chunk chain to the sink, records the chain's block metas and one
index meta, and returns the total chunk size. -/
theorem writeOneBlock_spec (cap : Nat) (crc : List Nat → Nat)
    (enc : Nat → Nat → List Nat × List Nat) (w : FileCursor) (ib : IndexBuf)
    (fid : Nat) (blk : DataBlock) (h : blk.ts.length % cap ≠ 0) :
    ∃ recs : List ChunkRec,
      writeOneBlock cap crc enc w ib fid blk
        = some ((recs.map ChunkRec.size).sum,
                ⟨w.buf ++ (recs.map (ChunkRec.wire crc enc)).flatten⟩,
                ({ ib with
                   block_meta := ib.block_meta ++ (recs.map ChunkRec.metaBytes).flatten
                   } : IndexBuf).insert_index_meta fid blk.field_type
                  (((blk.ts.length - 1) / cap + 1) % 65536)) ∧
      WireChain enc w.pos recs := by
  have hn0 : blk.ts.length ≠ 0 := by
    intro h0; rw [h0] at h; simp at h
  have hbd : ((blk.ts.length - 1) / cap + 1) % 65536 ≤ blk.ts.length / cap + 1 := by
    calc ((blk.ts.length - 1) / cap + 1) % 65536
        ≤ (blk.ts.length - 1) / cap + 1 := Nat.mod_le _ _
      _ = blk.ts.length / cap + 1 := by rw [pred_div_eq_of_mod_ne_zero _ _ h]
  obtain ⟨recs, heq, hch⟩ := chunkLoop_spec cap crc enc blk.ts h
    (((blk.ts.length - 1) / cap + 1) % 65536) 0 0 w ib 0 (by omega) (Or.inl ⟨rfl, rfl⟩)
  refine ⟨recs, ?_, hch⟩
  simp only [writeOneBlock, DataBlock.len, if_neg hn0, heq, Nat.zero_add]

/-- In a contiguous wire chain, any two consecutive chunks satisfy
`next.offset = previous.offset + previous.size`. -/
theorem wireChain_adjacent (enc : Nat → Nat → List Nat × List Nat) :
    ∀ (recs : List ChunkRec) (pos : Nat), WireChain enc pos recs →
      ∀ k (c c' : ChunkRec), recs[k]? = some c → recs[k + 1]? = some c' →
        c'.offset = c.offset + c.size := by
  intro recs
  induction recs with
  | nil => intro pos _ k c c' hk _; simp at hk
  | cons a rest ih =>
    intro pos hch k c c' hk hk1
    obtain ⟨ha, _, _, hrest⟩ := hch
    cases k with
    | zero =>
      have hac : a = c := by simpa using hk
      cases rest with
      | nil => simp at hk1
      | cons b rest2 =>
        have hbc : b = c' := by simpa using hk1
        obtain ⟨hb, _, _, _⟩ := hrest
        rw [← hac, ← hbc, hb, ha]
    | succ k =>
      exact ih (pos + a.size) hrest k c c' (by simpa using hk) (by simpa using hk1)

/-- Claim C1 (failing instance): for a field of 10000 points and chunk cap
10000 the claim predicts exactly one chunk covering indices 0 to 9999; but
the code computes the first chunk's end as `n mod cap = 0` and panics
reading `ts_sli[end - 1]` — the embedding returns `none`, so no chunk
covers anything. -/
theorem c1_chunk_partition_fails :
    writeOneBlock 10000 crcZero encConst ⟨[]⟩ IndexBuf.new 1
      ⟨3, List.replicate 10000 0⟩ = none := by
  apply writeOneBlock_none_of_mod_eq_zero <;> (simp only [List.length_replicate]; try decide)

/-- Claim C8 (failing instance): for a field of 20000 points and chunk cap
10000 the claim predicts an index meta recording `block_count = 2`; but the
code panics in the first chunk (end index 0) before recording any index
meta — the embedding returns `none`. -/
theorem c8_block_count_not_recorded :
    (writeOneBlock 10000 crcZero encConst ⟨[]⟩ IndexBuf.new 7
        ⟨1, List.replicate 20000 0⟩).map (fun r => r.2.2.index_meta) = none := by
  rw [writeOneBlock_none_of_mod_eq_zero 10000 crcZero encConst ⟨[]⟩ IndexBuf.new 7
    ⟨1, List.replicate 20000 0⟩ (by simp only [List.length_replicate]; try decide)
    (by simp only [List.length_replicate]; try decide)]
  rfl

set_option maxRecDepth 4000 in
/-- Claim C3 (failing instance): emitting the blocks of field 1 never
inserts anything into the membership filter — the filter stays empty, and
the subsequent membership query for field 1 reports absent, a false
negative for a written field. -/
theorem c3_filter_reports_absent :
    (writeOneBlock 1000 crcZero encConst ⟨[]⟩ IndexBuf.new 1 ⟨2, [2, 3, 4]⟩).map
      (fun r => r.2.2.bloom_filter.contains 1) = some false := by
  decide

/-- Claim C2 (failing instance): with phases returning 5, 7, 11 and 13
bytes and a successful flush, the orchestrator returns 23 — the sum of the
header, blocks and index counts only; the footer's 13 bytes are dropped by
the shadowed `size` binder, so the result is not the sum of all four
phases (36). -/
theorem c2_footer_count_dropped :
    tsmWrite (fun s => (.ok 5, s)) (fun s => (.ok 7, s)) (fun s => (.ok 11, s))
      (fun s => (.ok 13, s)) (fun s => (.ok (), s)) (0 : Nat) = (.ok 23, 0) ∧
    (23 : Nat) ≠ 5 + 7 + 11 + 13 := by
  exact ⟨rfl, by decide⟩

/-- Claim C4 counterexample: for a field of 3 points with chunk cap 2 the
loop emits two chunks; the recorded pairs (byte_offset, byte_size) are
(0, 10) and (10, 12): the second chunk's offset 10 equals the first's
offset plus size, so it is not strictly greater than offset + size. -/
theorem c4_counterexample :
    (writeOneBlock 2 crcZero encConst ⟨[]⟩ IndexBuf.new 1 ⟨3, [10, 20, 30]⟩).map
      (fun r => bmPairs r.2.2.block_meta) = some [(0, 10), (10, 12)] ∧
    ¬ ((10 : Nat) > 0 + 10) := by
  exact ⟨by decide, by decide⟩

/-- Claim C4 as amended: for any two chunks written consecutively within
one field's emission, the later chunk's byte offset equals (and hence is
not strictly greater than) the former's byte offset plus byte size: the
chunks are contiguous. -/
theorem c4_amended_offsets_contiguous (cap : Nat) (crc : List Nat → Nat)
    (enc : Nat → Nat → List Nat × List Nat) (w : FileCursor) (ib : IndexBuf)
    (fid : Nat) (blk : DataBlock) (h : blk.ts.length % cap ≠ 0) :
    ∃ (recs : List ChunkRec) (t : Nat) (w1 : FileCursor) (ib1 : IndexBuf),
      writeOneBlock cap crc enc w ib fid blk = some (t, w1, ib1) ∧
      ib1.block_meta = ib.block_meta ++ (recs.map ChunkRec.metaBytes).flatten ∧
      ∀ k (c c' : ChunkRec), recs[k]? = some c → recs[k + 1]? = some c' →
        c'.offset = c.offset + c.size ∧ ¬ (c'.offset > c.offset + c.size) := by
  obtain ⟨recs, heq, hch⟩ := writeOneBlock_spec cap crc enc w ib fid blk h
  refine ⟨recs, _, _, _, heq, by simp [IndexBuf.insert_index_meta], ?_⟩
  intro k c c' hk hk1
  have := wireChain_adjacent enc recs w.pos hch k c c' hk hk1
  omega

/-- Witness for the amended C4 at a concrete input. -/
theorem c4_amended_offsets_contiguous_witness :
    ([10, 20, 30] : List Int).length % 2 ≠ 0 ∧
    (∃ (recs : List ChunkRec) (t : Nat) (w1 : FileCursor) (ib1 : IndexBuf),
      writeOneBlock 2 crcZero encConst ⟨[]⟩ IndexBuf.new 1 ⟨3, [10, 20, 30]⟩
        = some (t, w1, ib1) ∧
      ib1.block_meta = IndexBuf.new.block_meta ++ (recs.map ChunkRec.metaBytes).flatten ∧
      ∀ k (c c' : ChunkRec), recs[k]? = some c → recs[k + 1]? = some c' →
        c'.offset = c.offset + c.size ∧ ¬ (c'.offset > c.offset + c.size)) :=
  ⟨by decide, c4_amended_offsets_contiguous 2 crcZero encConst ⟨[]⟩ IndexBuf.new 1
    ⟨3, [10, 20, 30]⟩ (by decide)⟩

/-- Claim C5: every chunk emitted appends to the sink, in order, the 4-byte
big-endian checksum of the encoded timestamp bytes, the timestamp bytes,
the 4-byte big-endian checksum of the encoded value bytes, and the value
bytes; its recorded byte size is exactly 4 + len(ts bytes) + 4 +
len(value bytes); its byte offset is the sink position immediately before
the timestamp checksum, and its value-section offset the position
immediately before the value checksum. -/
theorem c5_chunk_wire_layout (cap : Nat) (crc : List Nat → Nat)
    (enc : Nat → Nat → List Nat × List Nat) (w : FileCursor) (ib : IndexBuf)
    (fid : Nat) (blk : DataBlock) (h : blk.ts.length % cap ≠ 0) :
    ∃ (recs : List ChunkRec) (t : Nat) (w1 : FileCursor) (ib1 : IndexBuf),
      writeOneBlock cap crc enc w ib fid blk = some (t, w1, ib1) ∧
      w1.buf = w.buf ++ (recs.map (ChunkRec.wire crc enc)).flatten ∧
      ib1.block_meta = ib.block_meta ++ (recs.map ChunkRec.metaBytes).flatten ∧
      WireChain enc w.pos recs := by
  obtain ⟨recs, heq, hch⟩ := writeOneBlock_spec cap crc enc w ib fid blk h
  exact ⟨recs, _, _, _, heq, rfl, by simp [IndexBuf.insert_index_meta], hch⟩

/-- Witness for C5 at a concrete input. -/
theorem c5_chunk_wire_layout_witness :
    ([10, 20, 30] : List Int).length % 2 ≠ 0 ∧
    (∃ (recs : List ChunkRec) (t : Nat) (w1 : FileCursor) (ib1 : IndexBuf),
      writeOneBlock 2 crcZero encConst ⟨[]⟩ IndexBuf.new 9 ⟨4, [10, 20, 30]⟩
        = some (t, w1, ib1) ∧
      w1.buf = (⟨[]⟩ : FileCursor).buf ++ (recs.map (ChunkRec.wire crcZero encConst)).flatten ∧
      ib1.block_meta = IndexBuf.new.block_meta ++ (recs.map ChunkRec.metaBytes).flatten ∧
      WireChain encConst (⟨[]⟩ : FileCursor).pos recs) :=
  ⟨by decide, c5_chunk_wire_layout 2 crcZero encConst ⟨[]⟩ IndexBuf.new 9
    ⟨4, [10, 20, 30]⟩ (by decide)⟩

/-- Claim C10: under the precondition that the point count is at least 1
and not a multiple of the chunk capacity, every timestamp index taken by
the chunk loop is in bounds and the block-count computation does not
underflow — the panic branch of the total embedding (`none`) is
unreachable; for an empty block the operation is undefined (the
`point_cnt - 1` underflow on an unsigned count), modelled as `none` rather
than an error value. -/
theorem c10_index_safety :
    (∀ (cap : Nat) (crc : List Nat → Nat) (enc : Nat → Nat → List Nat × List Nat)
        (w : FileCursor) (ib : IndexBuf) (fid : Nat) (blk : DataBlock),
        1 ≤ blk.ts.length → blk.ts.length % cap ≠ 0 →
        (writeOneBlock cap crc enc w ib fid blk).isSome = true) ∧
    (∀ (cap : Nat) (crc : List Nat → Nat) (enc : Nat → Nat → List Nat × List Nat)
        (w : FileCursor) (ib : IndexBuf) (fid : Nat) (blk : DataBlock),
        blk.ts.length = 0 →
        writeOneBlock cap crc enc w ib fid blk = none) := by
  constructor
  · intro cap crc enc w ib fid blk _ h
    obtain ⟨recs, heq, _⟩ := writeOneBlock_spec cap crc enc w ib fid blk h
    rw [heq]; rfl
  · intro cap crc enc w ib fid blk h
    simp [writeOneBlock, DataBlock.len, h]

/-- Witness for C10 at concrete inputs: a 3-point block with cap 1000 is
emitted successfully; an empty block is undefined. -/
theorem c10_index_safety_witness :
    (1 ≤ ([2, 3, 4] : List Int).length ∧ ([2, 3, 4] : List Int).length % 1000 ≠ 0 ∧
      (writeOneBlock 1000 crcZero encConst ⟨[]⟩ IndexBuf.new 5 ⟨2, [2, 3, 4]⟩).isSome = true) ∧
    (([] : List Int).length = 0 ∧
      writeOneBlock 1000 crcZero encConst ⟨[]⟩ IndexBuf.new 5 ⟨2, []⟩ = none) :=
  ⟨⟨by decide, by decide,
    c10_index_safety.1 1000 crcZero encConst ⟨[]⟩ IndexBuf.new 5 ⟨2, [2, 3, 4]⟩
      (by decide) (by decide)⟩,
   by decide,
   c10_index_safety.2 1000 crcZero encConst ⟨[]⟩ IndexBuf.new 5 ⟨2, []⟩ (by decide)⟩

/-- Claim C7: whichever phase of the orchestrated write fails first, the
orchestrator returns that phase's error wrapped in the single
write-failure kind carrying its reason string, and the final state is the
one the failing phase produced. Each equation holds for arbitrary later
phase functions — `fx`, `ff`, `ffl` do not occur in the right-hand sides —
so no later phase is executed and no error is swallowed. -/
theorem c7_phase_failure_aborts {S : Type} (fh fb fx ff : S → Except Error Nat × S)
    (ffl : S → Except Error Unit × S) (s : S) :
    (∀ e s1, fh s = (.error e, s1) →
      tsmWrite fh fb fx ff ffl s = (.error (.writeTsmErr e.message), s1)) ∧
    (∀ i1 s1 e s2, fh s = (.ok i1, s1) → fb s1 = (.error e, s2) →
      tsmWrite fh fb fx ff ffl s = (.error (.writeTsmErr e.message), s2)) ∧
    (∀ i1 s1 i2 s2 e s3, fh s = (.ok i1, s1) → fb s1 = (.ok i2, s2) →
      fx s2 = (.error e, s3) →
      tsmWrite fh fb fx ff ffl s = (.error (.writeTsmErr e.message), s3)) ∧
    (∀ i1 s1 i2 s2 i3 s3 e s4, fh s = (.ok i1, s1) → fb s1 = (.ok i2, s2) →
      fx s2 = (.ok i3, s3) → ff s3 = (.error e, s4) →
      tsmWrite fh fb fx ff ffl s = (.error (.writeTsmErr e.message), s4)) ∧
    (∀ i1 s1 i2 s2 i3 s3 i4 s4 e s5, fh s = (.ok i1, s1) → fb s1 = (.ok i2, s2) →
      fx s2 = (.ok i3, s3) → ff s3 = (.ok i4, s4) → ffl s4 = (.error e, s5) →
      tsmWrite fh fb fx ff ffl s = (.error (.writeTsmErr e.message), s5)) := by
  refine ⟨?_, ?_, ?_, ?_, ?_⟩ <;> intros <;> simp_all [tsmWrite]

/-- Witness for C7: a sink failure in the blocks phase — the orchestrator
returns the wrapped reason and the header-phase count is discarded, with
the later phases (given here as ordinary successful functions) unused. -/
theorem c7_phase_failure_aborts_witness :
    (fun (s : Nat) => ((.ok 5 : Except Error Nat), s)) 0 = (.ok 5, 0) ∧
    (fun (s : Nat) => ((.error (.other "disk full") : Except Error Nat), s)) 0
      = (.error (.other "disk full"), 0) ∧
    tsmWrite (fun s => (.ok 5, s)) (fun s => (.error (.other "disk full"), s))
      (fun s => (.ok 11, s)) (fun s => (.ok 13, s)) (fun s => (.ok (), s)) (0 : Nat)
      = (.error (.writeTsmErr "disk full"), 0) :=
  ⟨rfl, rfl,
    (c7_phase_failure_aborts (fun s => (.ok 5, s))
      (fun s => (.error (.other "disk full"), s)) (fun s => (.ok 11, s))
      (fun s => (.ok 13, s)) (fun s => (.ok (), s)) 0).2.1
      5 0 (.other "disk full") 0 rfl rfl⟩

/-- Every successful run of the index serialization loop appends bytes to
the sink and returns the running count increased by exactly their
number. -/
theorem writeToLoop_append (im bm : List Nat) (offs : List Nat) :
    ∀ fuel ipos iidx (w : FileCursor) size sz w1,
      writeToLoop im bm offs fuel ipos iidx w size = some (sz, w1) →
      ∃ bs, w1.buf = w.buf ++ bs ∧ sz = size + bs.length := by
  intro fuel
  induction fuel with
  | zero =>
    intro ipos iidx w size sz w1 h
    by_cases hc : im.length ≤ ipos
    · simp [writeToLoop, hc] at h
      exact ⟨[], by simp [← h.1, ← h.2]⟩
    · simp [writeToLoop, hc] at h
  | succ fuel ih =>
    intro ipos iidx w size sz w1 h
    by_cases hc : im.length ≤ ipos
    · simp [writeToLoop, hc] at h
      exact ⟨[], by simp [← h.1, ← h.2]⟩
    · simp only [writeToLoop, if_neg hc] at h
      cases hsl : sliceRange im ipos (ipos + INDEX_META_SIZE) with
      | none => simp [hsl] at h
      | some imRec =>
        simp only [hsl] at h
        cases hoa : offs[iidx]? with
        | none => simp [hoa] at h
        | some a =>
          simp only [hoa] at h
          cases hbs : (match offs[iidx + 1]? with
                       | some b => sliceRange bm a b
                       | none => sliceFrom bm a) with
          | none => simp [hbs] at h
          | some bsli =>
            simp only [hbs, FileCursor.write] at h
            obtain ⟨bs, hbuf, hsz⟩ := ih _ _ _ _ _ _ h
            refine ⟨imRec ++ bsli ++ bs, ?_, ?_⟩
            · simp only [hbuf]; simp [List.append_assoc]
            · simp [hsz, List.length_append]; omega

/-- Claim C9: after a successful index phase, the recorded index offset is
the sink position captured immediately before the index phase wrote its
first byte — the absolute offset of the index region's start, since the
index bytes are appended right there — and the footer phase then writes
exactly the membership filter's raw bytes followed by the 8-byte
big-endian value of that offset, returning filter length + 8. -/
theorem c9_footer_layout (w : FileCursor) (ib : IndexBuf) (sz : Nat)
    (w1 : FileCursor) (ib1 : IndexBuf)
    (h : writeIndexPhase w ib = some (sz, w1, ib1)) :
    ib1.index_offset = w.pos ∧
    (∃ ixBytes, w1.buf = w.buf ++ ixBytes) ∧
    writeFooterPhase w1 ib1
      = (ib1.bloom_filter.bytes.length + 8,
         ⟨w1.buf ++ ib1.bloom_filter.bytes ++ beBytes 8 w.pos⟩) := by
  simp only [writeIndexPhase] at h
  cases hwt : (ib.set_index_offset w.pos).write_to w with
  | none => rw [hwt] at h; simp at h
  | some p =>
    rw [hwt] at h
    obtain ⟨szx, wx⟩ := p
    simp only [Option.some.injEq, Prod.mk.injEq] at h
    obtain ⟨-, hw1, hib1⟩ := h
    subst hw1 hib1
    refine ⟨by simp [IndexBuf.set_index_offset], ?_, ?_⟩
    · obtain ⟨bs, hbuf, -⟩ :=
        writeToLoop_append _ _ _ _ _ _ _ _ _ _ hwt
      exact ⟨bs, hbuf⟩
    · simp [writeFooterPhase, write_footer_to, FileCursor.write, beBytes_length,
        IndexBuf.set_index_offset, List.append_assoc]

set_option maxRecDepth 4000 in
/-- Witness for C9 at a concrete input: an empty index builder. -/
theorem c9_footer_layout_witness :
    writeIndexPhase ⟨[]⟩ IndexBuf.new = some (0, ⟨[]⟩, IndexBuf.new.set_index_offset 0) ∧
    (IndexBuf.new.set_index_offset 0).index_offset = (⟨[]⟩ : FileCursor).pos ∧
    (∃ ixBytes, (⟨[]⟩ : FileCursor).buf = (⟨[]⟩ : FileCursor).buf ++ ixBytes) ∧
    writeFooterPhase ⟨[]⟩ (IndexBuf.new.set_index_offset 0)
      = ((IndexBuf.new.set_index_offset 0).bloom_filter.bytes.length + 8,
         ⟨(⟨[]⟩ : FileCursor).buf ++ (IndexBuf.new.set_index_offset 0).bloom_filter.bytes ++
           beBytes 8 (⟨[]⟩ : FileCursor).pos⟩) := by
  have h : writeIndexPhase ⟨[]⟩ IndexBuf.new
      = some (0, ⟨[]⟩, IndexBuf.new.set_index_offset 0) := by decide
  exact ⟨h, c9_footer_layout ⟨[]⟩ IndexBuf.new 0 ⟨[]⟩ (IndexBuf.new.set_index_offset 0) h⟩

theorem idxBytes_length (e : FieldEntry) : e.idxBytes.length = INDEX_META_SIZE := by
  simp [FieldEntry.idxBytes, beBytes_length, INDEX_META_SIZE]

theorem flatten_map_idxBytes_length (es : List FieldEntry) :
    ((es.map FieldEntry.idxBytes).flatten).length = INDEX_META_SIZE * es.length := by
  induction es with
  | nil => simp
  | cons e es ih =>
    simp [ih, idxBytes_length, INDEX_META_SIZE]
    omega

theorem foldl_insert_block_meta (bs : List ((Int × Int) × (Nat × Nat × Nat))) :
    ∀ ib : IndexBuf,
      bs.foldl (fun acc b => acc.insert_block_meta b.1.1 b.1.2 b.2.1 b.2.2.1 b.2.2.2) ib
        = { ib with block_meta := ib.block_meta ++
            (bs.map (fun b => beBytesI64 b.1.1 ++ beBytesI64 b.1.2 ++ beBytes 8 b.2.1 ++
              beBytes 8 b.2.2.1 ++ beBytes 8 b.2.2.2)).flatten } := by
  induction bs with
  | nil => intro ib; simp
  | cons b bs ih =>
    intro ib
    rw [List.foldl_cons, ih]
    simp [IndexBuf.insert_block_meta, List.append_assoc]

/-- Closed form of accumulating one field: the index-meta record and the
block-meta records are appended, the field's start offset is pushed, and
the running end-of-buffer marker moves past this field's records. -/
theorem applyEntry_eq (ib : IndexBuf) (e : FieldEntry) :
    applyEntry ib e =
      { ib with
        index_meta := ib.index_meta ++ e.idxBytes
        block_meta := ib.block_meta ++ e.blockBytes
        block_meta_offsets := ib.block_meta_offsets ++ [ib.last_block_meta_offset]
        last_block_meta_offset := ib.block_meta.length + e.blockBytes.length } := by
  simp only [applyEntry, foldl_insert_block_meta, IndexBuf.insert_index_meta]
  simp [FieldEntry.blockBytes, FieldEntry.idxBytes, List.append_assoc]

/-- Closed form of accumulating a sequence of fields into an aligned index
builder (one whose end-of-buffer marker equals the block-meta length, as
holds for a fresh builder and is preserved by every field): the index-meta
and block-meta buffers are flat concatenations in accumulation order, and
the offset table lists each field's start inside the block-meta buffer. -/
theorem applyEntries_eq (es : List FieldEntry) :
    ∀ ib : IndexBuf, ib.last_block_meta_offset = ib.block_meta.length →
      applyEntries ib es =
        { ib with
          index_meta := ib.index_meta ++ (es.map FieldEntry.idxBytes).flatten
          block_meta := ib.block_meta ++ (es.map FieldEntry.blockBytes).flatten
          block_meta_offsets := ib.block_meta_offsets ++ startsFrom ib.block_meta.length es
          last_block_meta_offset :=
            ib.block_meta.length + ((es.map FieldEntry.blockBytes).flatten).length } := by
  induction es with
  | nil =>
    intro ib hal
    obtain ⟨io, im, la, offs, bm, bf⟩ := ib
    simp only at hal
    subst hal
    simp [applyEntries, startsFrom]
  | cons e es ih =>
    intro ib hal
    show applyEntries (applyEntry ib e) es = _
    rw [applyEntry_eq, ih _ (by simp)]
    obtain ⟨io, im, la, offs, bm, bf⟩ := ib
    simp only at hal
    subst hal
    simp [startsFrom, List.append_assoc, Nat.add_assoc]

theorem sliceRange_exact (p m s : List Nat) :
    sliceRange (p ++ (m ++ s)) p.length (p.length + m.length) = some m := by
  unfold sliceRange
  rw [if_pos]
  · have h1 : (p ++ (m ++ s)).drop p.length = m ++ s := List.drop_left p (m ++ s)
    rw [h1]
    have h2 : p.length + m.length - p.length = m.length := by omega
    rw [h2]
    exact congrArg some (List.take_left m s)
  · constructor
    · omega
    · simp [List.length_append]

theorem sliceFrom_exact (p m : List Nat) :
    sliceFrom (p ++ m) p.length = some m := by
  unfold sliceFrom
  rw [if_pos (by simp [List.length_append])]
  exact congrArg some (List.drop_left p m)

theorem startsFrom_length (l : List FieldEntry) :
    ∀ a, (startsFrom a l).length = l.length := by
  induction l with
  | nil => intro a; rfl
  | cons e l ih => intro a; simp [startsFrom, ih]

theorem startsFrom_append (l1 l2 : List FieldEntry) :
    ∀ a, startsFrom a (l1 ++ l2)
      = startsFrom a l1 ++
        startsFrom (a + ((l1.map FieldEntry.blockBytes).flatten).length) l2 := by
  induction l1 with
  | nil => intro a; simp [startsFrom]
  | cons e l1 ih =>
    intro a
    simp [startsFrom, ih, List.length_append, Nat.add_assoc]

/-- The index serialization loop, run on the canonical builder state
produced by accumulating a sequence of fields, emits per remaining field
its index-meta record immediately followed by exactly its own block-meta
bytes, with no separators, and counts every emitted byte. `pre` is the
already-processed prefix, `rest` the remaining fields. -/
theorem writeToLoop_canonical (all : List FieldEntry) :
    ∀ (rest pre : List FieldEntry), all = pre ++ rest →
    ∀ fuel, rest.length ≤ fuel →
    ∀ (w : FileCursor) (size : Nat),
      writeToLoop ((all.map FieldEntry.idxBytes).flatten)
          ((all.map FieldEntry.blockBytes).flatten)
          (startsFrom 0 all) fuel (INDEX_META_SIZE * pre.length) pre.length w size
        = some (size + (indexWire rest).length, ⟨w.buf ++ indexWire rest⟩) := by
  intro rest
  induction rest with
  | nil =>
    intro pre hall fuel _ w size
    have hlen : ((all.map FieldEntry.idxBytes).flatten).length
        = INDEX_META_SIZE * pre.length := by
      rw [flatten_map_idxBytes_length, hall]
      simp
    cases fuel with
    | zero => simp [writeToLoop, hlen, indexWire]
    | succ f => simp [writeToLoop, hlen, indexWire]
  | cons e rest ih =>
    intro pre hall fuel hfuel w size
    have hf1 : rest.length + 1 ≤ fuel := by simpa using hfuel
    obtain ⟨f, rfl⟩ : ∃ f, fuel = f + 1 := ⟨fuel - 1, by omega⟩
    have hP : ((pre.map FieldEntry.idxBytes).flatten).length = INDEX_META_SIZE * pre.length :=
      flatten_map_idxBytes_length pre
    have him : (all.map FieldEntry.idxBytes).flatten
        = (pre.map FieldEntry.idxBytes).flatten ++
          (FieldEntry.idxBytes e ++ (rest.map FieldEntry.idxBytes).flatten) := by
      rw [hall]; simp
    have hbm : (all.map FieldEntry.blockBytes).flatten
        = (pre.map FieldEntry.blockBytes).flatten ++
          (FieldEntry.blockBytes e ++ (rest.map FieldEntry.blockBytes).flatten) := by
      rw [hall]; simp
    have hlenim : ((all.map FieldEntry.idxBytes).flatten).length
        = INDEX_META_SIZE * pre.length +
          (INDEX_META_SIZE + INDEX_META_SIZE * rest.length) := by
      rw [him, List.length_append, List.length_append, hP, idxBytes_length,
        flatten_map_idxBytes_length]
    have hcond : ¬ (((all.map FieldEntry.idxBytes).flatten).length ≤ INDEX_META_SIZE * pre.length) := by
      rw [hlenim]; simp [INDEX_META_SIZE]
    have hsl : sliceRange ((all.map FieldEntry.idxBytes).flatten)
        (INDEX_META_SIZE * pre.length) (INDEX_META_SIZE * pre.length + INDEX_META_SIZE)
        = some (FieldEntry.idxBytes e) := by
      rw [him, ← hP, ← idxBytes_length e]
      exact sliceRange_exact _ _ _
    have hoffs : startsFrom 0 all
        = startsFrom 0 pre ++
          startsFrom (0 + ((pre.map FieldEntry.blockBytes).flatten).length) (e :: rest) := by
      rw [hall, startsFrom_append]
    have hoa : (startsFrom 0 all)[pre.length]?
        = some (((pre.map FieldEntry.blockBytes).flatten).length) := by
      rw [hoffs, List.getElem?_append_right (le_of_eq (startsFrom_length pre 0))]
      rw [startsFrom_length]
      simp [startsFrom]
    have hbsli : (match (startsFrom 0 all)[pre.length + 1]? with
                  | some b => sliceRange ((all.map FieldEntry.blockBytes).flatten)
                      (((pre.map FieldEntry.blockBytes).flatten).length) b
                  | none => sliceFrom ((all.map FieldEntry.blockBytes).flatten)
                      (((pre.map FieldEntry.blockBytes).flatten).length))
        = some (FieldEntry.blockBytes e) := by
      cases rest with
      | nil =>
        have h1 : (startsFrom 0 all)[pre.length + 1]? = none := by
          rw [hoffs, List.getElem?_append_right (by rw [startsFrom_length]; omega)]
          rw [startsFrom_length]
          simp [startsFrom]
        rw [h1, hbm]
        simp only [List.map_nil, List.flatten_nil, List.append_nil]
        exact sliceFrom_exact _ _
      | cons r rest2 =>
        have h1 : (startsFrom 0 all)[pre.length + 1]?
            = some ((((pre.map FieldEntry.blockBytes).flatten).length)
                + (FieldEntry.blockBytes e).length) := by
          rw [hoffs, List.getElem?_append_right (by rw [startsFrom_length]; omega)]
          rw [startsFrom_length]
          simp [startsFrom]
        rw [h1, hbm]
        exact sliceRange_exact _ _ _
    have harg : INDEX_META_SIZE * ((pre ++ [e]).length) = INDEX_META_SIZE * pre.length + INDEX_META_SIZE := by
      simp [Nat.mul_add]
    have hrec := ih (pre ++ [e]) (by rw [hall]; simp) f (by omega)
      ⟨w.buf ++ FieldEntry.idxBytes e ++ FieldEntry.blockBytes e⟩
      (size + (FieldEntry.idxBytes e).length + (FieldEntry.blockBytes e).length)
    rw [harg] at hrec
    have hlenpre : (pre ++ [e]).length = pre.length + 1 := by simp
    rw [hlenpre] at hrec
    simp only [writeToLoop, if_neg hcond, hsl, hoa, hbsli, FileCursor.write]
    rw [hrec]
    simp [indexWire, List.append_assoc, List.length_append]
    omega

/-- The per-field index serialization of a field sequence is as long as the
two flat buffers together. -/
theorem indexWire_length (es : List FieldEntry) :
    (indexWire es).length
      = ((es.map FieldEntry.idxBytes).flatten).length +
        ((es.map FieldEntry.blockBytes).flatten).length := by
  induction es with
  | nil => simp [indexWire]
  | cons e es ih =>
    simp [indexWire, List.length_append] at *
    omega

/-- Claim C6: for fields accumulated in any order into a fresh index
builder — each field contributing its block-meta records followed by its
index-meta record — the index phase serializes, in accumulation order,
every field's fixed-width index-meta record immediately followed by
exactly that field's own block-meta records and no others, with no
separators, and the total bytes written equal the length of the
accumulated index-meta buffer plus the length of the accumulated
block-meta buffer. -/
theorem c6_index_serialization (es : List FieldEntry) (w : FileCursor) :
    (applyEntries IndexBuf.new es).write_to w
      = some ((applyEntries IndexBuf.new es).index_meta.length +
              (applyEntries IndexBuf.new es).block_meta.length,
              ⟨w.buf ++ indexWire es⟩) := by
  rw [applyEntries_eq es IndexBuf.new rfl]
  simp only [IndexBuf.write_to, IndexBuf.new, List.nil_append, List.length_nil]
  have h := writeToLoop_canonical es es [] rfl
    (((es.map FieldEntry.idxBytes).flatten).length)
    (by rw [flatten_map_idxBytes_length]; simp [INDEX_META_SIZE]; omega) w 0
  simp only [List.length_nil, Nat.mul_zero, Nat.zero_add] at h
  rw [h, indexWire_length]

end Tsm
